import Mathlib

/-!
Verification development for the xlsx-to-pie-chart repository.

The definitions below are a shallow embedding of the aggregation and
comparison engine in src/data_analyzer.py and of the two-ring pie-chart
geometry in src/data_visualizer.py.

Modelling conventions:
- A pandas DataFrame row becomes a Record with a rational labor cost and two
  optional (nullable) responsible-party strings; pd.notna on such a field is
  Option.isSome, pd.isna is Option.isNone.
- Python float arithmetic is modelled with exact rationals; claims phrased
  as within floating-point tolerance become exact equalities here.
- Python dicts preserve insertion order, so each dict of counters becomes an
  insertion-ordered association list; d[k] += v with a d[k] = 0 default is
  the alAdd operation below.
- pandas sort_values(by=key, ascending=False) reverses the input, runs the
  underlying ascending argsort and reverses the resulting indexer, which for
  the stable small-array sort NumPy applies (straight insertion sort for the
  at most a dozen role rows this program produces) is a descending sort that
  is stable with respect to the original row order. It is modelled by the
  stable descending insertion sort sortByKey below.
- Python str.split with the one-character separator "/" is splitCh, and
  str.strip is pyStrip (whitespace trimming on both ends).
- The Python set of role names built by compare_with_previous iterates in an
  unspecified order; it is modelled as a deduplicated list, and theorems
  about the comparison output only state order-insensitive facts plus the
  descending sortedness produced by the final sort.
- Angles in the chart are kept in radians as real numbers; the source
  converts them to degrees only when handing them to matplotlib patches.
-/

/-- Ordered-dict lookup with a default: Python d.get(k, d0), and also d[k]
on the dicts of this program whose keys always match (see keysOf lemmas). -/
def lookupD {α : Type} (l : List (String × α)) (k : String) (d : α) : α :=
  match l with
  | [] => d
  | (k1, v) :: t => if k1 = k then v else lookupD t k d

/-- Ordered-dict accumulation: Python
if k not in d: d[k] = 0
d[k] += x
on an insertion-ordered association list. An existing key is updated in
place, a new key is appended at the end (dict insertion order). -/
def alAdd {α : Type} [Add α] (k : String) (x : α) : List (String × α) → List (String × α)
  | [] => [(k, x)]
  | (k1, v) :: t => if k1 = k then (k1, v + x) :: t else (k1, v) :: alAdd k x t

/-- Keys of an ordered dict, in insertion order. -/
def keysOf {α : Type} (l : List (String × α)) : List String :=
  l.map (·.1)

/-- Folding a list of keyed additions into an ordered dict; proof-side view
of the accumulation loops of analyze_data. -/
def applyAdds {α : Type} [Add α] (us : List (String × α)) (l : List (String × α)) :
    List (String × α) :=
  us.foldl (fun acc u => alAdd u.1 u.2 acc) l

/-- Python s.split(c) for a one-character separator c, on the character
list: pieces between occurrences of c, empty pieces retained, always at
least one piece. -/
def splitCh (c : Char) : List Char → List (List Char)
  | [] => [[]]
  | a :: t =>
    if a = c then [] :: splitCh c t
    else
      match splitCh c t with
      | [] => [[a]]
      | h :: r => (a :: h) :: r

/-- Python str.strip on a character list: drop whitespace from both ends. -/
def pyStripChars (l : List Char) : List Char :=
  ((l.dropWhile (·.isWhitespace)).reverse.dropWhile (·.isWhitespace)).reverse

/-- Python str.strip. -/
def pyStrip (s : String) : String :=
  String.mk (pyStripChars s.data)

/-- Python roles_str.split("/"). -/
def pySplitSlash (s : String) : List String :=
  (splitCh '/' s.data).map (fun cs => String.mk cs)

/-- DataAnalyzer._split_roles: a missing (NA) field gives the empty list, a
present string is split on the slash and each piece stripped. -/
def split_roles : Option String → List String
  | none => []
  | some s => (pySplitSlash s).map pyStrip

/-- One input row: labor cost and the two nullable responsible-party
columns. -/
structure Record where
  laborCost : ℚ
  production : Option String
  office : Option String
deriving DecidableEq

/-- The mutable aggregation state of DataAnalyzer.analyze_data: the two
role_counts dicts, the two role_costs dicts, and the per-department
counters, with the Производство (production) and Офис (office) components
spelled out as separate fields. -/
structure AnalysisState where
  prodCounts : List (String × ℕ)
  prodCosts : List (String × ℚ)
  offCounts : List (String × ℕ)
  offCosts : List (String × ℚ)
  prodDeptCount : ℕ
  prodDeptCost : ℚ
  offDeptCount : ℕ
  offDeptCost : ℚ
deriving DecidableEq

/-- The freshly initialised dictionaries of analyze_data. -/
def initState : AnalysisState :=
  { prodCounts := [], prodCosts := [], offCounts := [], offCosts := []
  , prodDeptCount := 0, prodDeptCost := 0, offDeptCount := 0, offDeptCost := 0 }

/-- One iteration of the production inner loop of analyze_data: the role is
stripped again, its count bucket gains 1, its cost bucket gains the
per-role cost share, and the production department counters gain 1 and the
share. -/
def bumpProd (cpr : ℚ) (a : AnalysisState) (r : String) : AnalysisState :=
  { a with prodCounts := alAdd (pyStrip r) 1 a.prodCounts
         , prodCosts := alAdd (pyStrip r) cpr a.prodCosts
         , prodDeptCount := a.prodDeptCount + 1
         , prodDeptCost := a.prodDeptCost + cpr }

/-- One iteration of the office inner loop of analyze_data. -/
def bumpOff (cpr : ℚ) (a : AnalysisState) (r : String) : AnalysisState :=
  { a with offCounts := alAdd (pyStrip r) 1 a.offCounts
         , offCosts := alAdd (pyStrip r) cpr a.offCosts
         , offDeptCount := a.offDeptCount + 1
         , offDeptCost := a.offDeptCost + cpr }

/-- The production branch of analyze_data for one record: cost_per_role is
labor_cost / len(roles), then every role is processed in order. -/
def prodStep (cost : ℚ) (roles : List String) (st : AnalysisState) : AnalysisState :=
  roles.foldl (bumpProd (cost / (roles.length : ℚ))) st

/-- The office branch of analyze_data for one record. -/
def offStep (cost : ℚ) (roles : List String) (st : AnalysisState) : AnalysisState :=
  roles.foldl (bumpOff (cost / (roles.length : ℚ))) st

/-- Processing of one DataFrame row by analyze_data: the production field is
handled if it is not NA, then the office field likewise. -/
def processRow (st : AnalysisState) (row : Record) : AnalysisState :=
  let st1 :=
    match row.production with
    | none => st
    | some s => prodStep row.laborCost (split_roles (some s)) st
  match row.office with
  | none => st1
  | some s => offStep row.laborCost (split_roles (some s)) st1

/-- The whole aggregation loop of analyze_data over the rows of the frame. -/
def aggregateRecords (rows : List Record) : AnalysisState :=
  rows.foldl processRow initState

/-- Error taxonomy of the analyzer; ValueError("Нет данных для анализа") on
an absent or empty frame is the EmptyDatasetError of the specification. -/
inductive AnalyzeError where
  | emptyDataset
deriving DecidableEq

/-- DataAnalyzer.analyze_data: rejects a missing or empty frame, otherwise
aggregates every row. -/
def analyze_data : Option (List Record) → Except AnalyzeError AnalysisState
  | none => Except.error AnalyzeError.emptyDataset
  | some rows =>
    if rows = [] then Except.error AnalyzeError.emptyDataset
    else Except.ok (aggregateRecords rows)

/-- The DataAnalyzer object: its stored results (None before the first
successful analyze_data call). -/
structure DataAnalyzer where
  results : Option AnalysisState
deriving DecidableEq

/-- The stateful analyze_data method: on success the results are stored,
on failure the exception propagates and the stored state is untouched
(the source assigns self.role_counts and friends only after the loop,
and the only raise happens before any accumulation). -/
def DataAnalyzer.analyzeData (a : DataAnalyzer) (df : Option (List Record)) :
    DataAnalyzer × Except AnalyzeError AnalysisState :=
  match analyze_data df with
  | Except.error e => (a, Except.error e)
  | Except.ok st => ({ results := some st }, Except.ok st)

/-- One row of the roles_data table built by get_sorted_role_costs. -/
structure RoleRow where
  dept : String
  role : String
  count : ℕ
  cost : ℚ
deriving DecidableEq

/-- The roles_data list of get_sorted_role_costs: all production cost
buckets then all office cost buckets, each row carrying the department, the
role, the count looked up in the parallel counts dict, and the cost. -/
def rolesData (st : AnalysisState) : List RoleRow :=
  st.prodCosts.map (fun p =>
    { dept := "Производство", role := p.1
    , count := lookupD st.prodCounts p.1 0, cost := p.2 })
  ++ st.offCosts.map (fun p =>
    { dept := "Офис", role := p.1
    , count := lookupD st.offCounts p.1 0, cost := p.2 })

/-- Stable descending insertion: x is placed before the first element whose
key does not exceed its own, so an element inserted later never jumps ahead
of an equal-keyed earlier one. -/
def insertByKey {α : Type} (key : α → ℚ) (x : α) : List α → List α
  | [] => [x]
  | y :: t => if key y ≤ key x then x :: y :: t else y :: insertByKey key x t

/-- Stable descending sort by a rational key; model of
pandas sort_values(by=key, ascending=False) as explained at the top of the
file. -/
def sortByKey {α : Type} (key : α → ℚ) : List α → List α
  | [] => []
  | x :: t => insertByKey key x (sortByKey key t)

/-- DataAnalyzer.get_sorted_role_costs on an analysed state. -/
def get_sorted_role_costs (st : AnalysisState) : List RoleRow :=
  sortByKey (fun r => r.cost) (rolesData st)

/-- One entry handed from get_role_data_for_chart to the visualizer:
parallel labels, sizes, colors and department_labels lists zipped into one
record. -/
structure ChartEntry where
  label : String
  size : ℕ
  color : String
  dept : String
deriving DecidableEq

/-- DataAnalyzer.get_role_data_for_chart on an analysed state: production
role counts (blue) then office role counts (orange), in dict insertion
order. -/
def get_role_data_for_chart (st : AnalysisState) : List ChartEntry :=
  st.prodCounts.map (fun p =>
    { label := p.1, size := p.2, color := "blue", dept := "Производство" })
  ++ st.offCounts.map (fun p =>
    { label := p.1, size := p.2, color := "orange", dept := "Офис" })

/-- total = sum(sizes) in create_pie_chart. -/
def totalSize (entries : List ChartEntry) : ℕ :=
  (entries.map (·.size)).sum

/-- The dept_data grouping loop of create_pie_chart: department sizes
accumulated in order of first appearance among the entries. -/
def deptData (entries : List ChartEntry) : List (String × ℕ) :=
  entries.foldl (fun d e => alAdd e.dept e.size d) []

/-- One wedge of the donut chart; angles in radians (the source converts to
degrees only inside the matplotlib Wedge constructor). -/
structure Wedge where
  label : String
  theta1 : ℝ
  theta2 : ℝ

noncomputable section

/-- Angular width s/total * 2 * pi of create_pie_chart. -/
def angleOf (total : ℕ) (s : ℕ) : ℝ :=
  ((s : ℝ) / (total : ℝ)) * (2 * Real.pi)

/-- The wedge placement loop: consecutive wedges starting at the given
angle, each spanning its angular width. -/
def accumWedges (total : ℕ) (start : ℝ) : List (String × ℕ) → List Wedge
  | [] => []
  | p :: t =>
    { label := p.1, theta1 := start, theta2 := start + angleOf total p.2 }
    :: accumWedges total (start + angleOf total p.2) t

/-- The outer ring of create_pie_chart: one wedge per (label, size) entry,
consecutively from angle 0. -/
def outerWedges (entries : List ChartEntry) : List Wedge :=
  accumWedges (totalSize entries) 0 (entries.map (fun e => (e.label, e.size)))

/-- The inner ring of create_pie_chart: one wedge per department group,
consecutively from angle 0, divided by the same grand total. -/
def innerWedges (entries : List ChartEntry) : List Wedge :=
  accumWedges (totalSize entries) 0 (deptData entries)

/-- Error taxonomy of the visualizer; ValueError("Нет данных для построения
диаграммы") is the EmptyChartError of the specification. -/
inductive ChartError where
  | emptyChart

/-- DataVisualizer.create_pie_chart on an analysed state: the geometry it
computes, guarded by the empty-labels check of the source. -/
def create_pie_chart (st : AnalysisState) : Except ChartError (List Wedge × List Wedge) :=
  let entries := get_role_data_for_chart st
  if entries.map (·.label) = [] then Except.error ChartError.emptyChart
  else Except.ok (outerWedges entries, innerWedges entries)

end

/-- Discriminates the error constructor of an Except value. -/
def exceptIsError {ε α : Type} : Except ε α → Bool
  | Except.error _ => true
  | Except.ok _ => false

/-- The static production role list of DataAnalyzer.__init__. -/
def production_roles : List String :=
  ["Резка", "Гибка", "Сборка", "Покраска", "Склад"]

/-- The static office role list of DataAnalyzer.__init__. -/
def office_roles : List String :=
  ["Менеджер", "Расчётчик", "Конструктор", "Программист"]

/-- One row of the comparison table of compare_with_previous. -/
structure CompRow where
  dept : String
  role : String
  curCount : ℕ
  prevCount : ℕ
  countDiff : ℤ
  curCost : ℚ
  prevCost : ℚ
  costDiff : ℚ
deriving DecidableEq

/-- The all_roles set of compare_with_previous, modelled as a deduplicated
list: every role name appearing in either department dict of either
result. -/
def unionRoles (cur prev : AnalysisState) : List String :=
  (keysOf cur.prodCounts ++ keysOf prev.prodCounts
    ++ keysOf cur.offCounts ++ keysOf prev.offCounts).dedup

/-- The loop body of compare_with_previous for one role: the department is
chosen by membership in the static production role list, and all four
values are read with a 0 default from that department only. -/
def compRowFor (cur prev : AnalysisState) (role : String) : CompRow :=
  if role ∈ production_roles then
    let cc := lookupD cur.prodCounts role 0
    let pc := lookupD prev.prodCounts role 0
    let ccost := lookupD cur.prodCosts role 0
    let pcost := lookupD prev.prodCosts role 0
    { dept := "Производство", role := role, curCount := cc, prevCount := pc
    , countDiff := (cc : ℤ) - (pc : ℤ), curCost := ccost, prevCost := pcost
    , costDiff := ccost - pcost }
  else
    let cc := lookupD cur.offCounts role 0
    let pc := lookupD prev.offCounts role 0
    let ccost := lookupD cur.offCosts role 0
    let pcost := lookupD prev.offCosts role 0
    { dept := "Офис", role := role, curCount := cc, prevCount := pc
    , countDiff := (cc : ℤ) - (pc : ℤ), curCost := ccost, prevCost := pcost
    , costDiff := ccost - pcost }

/-- DataAnalyzer.compare_with_previous on two analysed results: one row per
role in the union, sorted by cost delta descending. -/
def compare_with_previous (cur prev : AnalysisState) : List CompRow :=
  sortByKey (fun r => r.costDiff) ((unionRoles cur prev).map (compRowFor cur prev))

/-- Proof-side view of the production cost additions one record performs:
the keyed cost shares its production loop writes, in loop order. -/
def prodCostUpdates (row : Record) : List (String × ℚ) :=
  match row.production with
  | none => []
  | some s =>
    (split_roles (some s)).map
      (fun r => (pyStrip r, row.laborCost / ((split_roles (some s)).length : ℚ)))

/-- Proof-side view of the production count additions one record performs. -/
def prodCountUpdates (row : Record) : List (String × ℕ) :=
  match row.production with
  | none => []
  | some s => (split_roles (some s)).map (fun r => (pyStrip r, 1))

/-- Proof-side view of the office cost additions one record performs. -/
def offCostUpdates (row : Record) : List (String × ℚ) :=
  match row.office with
  | none => []
  | some s =>
    (split_roles (some s)).map
      (fun r => (pyStrip r, row.laborCost / ((split_roles (some s)).length : ℚ)))

/-- Proof-side view of the office count additions one record performs. -/
def offCountUpdates (row : Record) : List (String × ℕ) :=
  match row.office with
  | none => []
  | some s => (split_roles (some s)).map (fun r => (pyStrip r, 1))

/-- Modelled from the spec: the order of first appearance of the values of
a list, used to state the department order of the inner ring. -/
def firstAppearanceOrder (l : List String) : List String :=
  l.foldl (fun acc d => if d ∈ acc then acc else acc ++ [d]) []

set_option maxRecDepth 100000

/-! Lemmas about the ordered-dict operations. -/

theorem lookupD_alAdd {α : Type} [AddMonoid α] (k k0 : String) (x : α)
    (l : List (String × α)) :
    lookupD (alAdd k x l) k0 0 = lookupD l k0 0 + (if k0 = k then x else 0) := by
  induction l with
  | nil =>
    simp only [alAdd, lookupD]
    by_cases h : k = k0
    · subst h; simp
    · rw [if_neg h, if_neg (fun hh : k0 = k => h hh.symm), add_zero]
  | cons p t ih =>
    obtain ⟨k1, v⟩ := p
    by_cases h1 : k1 = k
    · subst h1
      simp only [alAdd, if_pos rfl, lookupD]
      by_cases h0 : k1 = k0
      · subst h0; simp
      · rw [if_neg h0, if_neg h0, if_neg (fun hh : k0 = k1 => h0 hh.symm), add_zero]
    · simp only [alAdd, if_neg h1, lookupD]
      by_cases h0 : k1 = k0
      · subst h0
        rw [if_pos rfl, if_pos rfl, if_neg (fun hh : k1 = k => h1 hh), add_zero]
      · rw [if_neg h0, if_neg h0, ih]

theorem lookupD_applyAdds {α : Type} [AddCommMonoid α] (us : List (String × α))
    (l : List (String × α)) (k0 : String) :
    lookupD (applyAdds us l) k0 0
      = lookupD l k0 0 + ((us.filter (fun u => u.1 = k0)).map (·.2)).sum := by
  induction us generalizing l with
  | nil => simp [applyAdds]
  | cons u us ih =>
    obtain ⟨k, x⟩ := u
    rw [show applyAdds ((k, x) :: us) l = applyAdds us (alAdd k x l) from rfl]
    rw [ih, lookupD_alAdd]
    by_cases h : k = k0
    · subst h
      rw [if_pos rfl, List.filter_cons_of_pos (by simp)]
      simp [add_assoc]
    · rw [if_neg (fun hh : k0 = k => h hh.symm), add_zero,
        List.filter_cons_of_neg (by simp [h])]

theorem keysOf_alAdd {α : Type} [Add α] (k : String) (x : α) (l : List (String × α)) :
    keysOf (alAdd k x l)
      = if k ∈ keysOf l then keysOf l else keysOf l ++ [k] := by
  induction l with
  | nil => simp [alAdd, keysOf]
  | cons p t ih =>
    obtain ⟨k1, v⟩ := p
    by_cases h1 : k1 = k
    · subst h1; simp [alAdd, keysOf]
    · rw [show alAdd k x ((k1, v) :: t) = (k1, v) :: alAdd k x t from by
        simp [alAdd, h1]]
      rw [show keysOf ((k1, v) :: alAdd k x t) = k1 :: keysOf (alAdd k x t) from rfl]
      rw [show keysOf ((k1, v) :: t) = k1 :: keysOf t from rfl, ih]
      by_cases hm : k ∈ keysOf t
      · rw [if_pos hm, if_pos (by simp [hm])]
      · rw [if_neg hm,
          if_neg (by
            intro hcon
            rcases List.mem_cons.mp hcon with hh | hh
            · exact h1 hh.symm
            · exact hm hh),
          List.cons_append]

theorem mem_keysOf_alAdd {α : Type} [Add α] (k k0 : String) (x : α)
    (l : List (String × α)) :
    k0 ∈ keysOf (alAdd k x l) ↔ k0 ∈ keysOf l ∨ k0 = k := by
  rw [keysOf_alAdd]
  by_cases hm : k ∈ keysOf l
  · rw [if_pos hm]
    exact ⟨Or.inl, fun h => h.elim id (fun hh => hh ▸ hm)⟩
  · rw [if_neg hm]
    simp [List.mem_append]

theorem nodup_keysOf_alAdd {α : Type} [Add α] (k : String) (x : α)
    (l : List (String × α)) (h : (keysOf l).Nodup) :
    (keysOf (alAdd k x l)).Nodup := by
  rw [keysOf_alAdd]
  by_cases hm : k ∈ keysOf l
  · rw [if_pos hm]; exact h
  · rw [if_neg hm]
    simp [List.nodup_append, h, hm]

theorem mem_keysOf_applyAdds {α : Type} [Add α] (us : List (String × α))
    (l : List (String × α)) (k0 : String) :
    k0 ∈ keysOf (applyAdds us l) ↔ k0 ∈ keysOf l ∨ k0 ∈ us.map (·.1) := by
  induction us generalizing l with
  | nil => simp [applyAdds]
  | cons u us ih =>
    rw [show applyAdds (u :: us) l = applyAdds us (alAdd u.1 u.2 l) from rfl, ih,
      mem_keysOf_alAdd]
    simp only [List.map_cons, List.mem_cons]
    tauto

theorem nodup_keysOf_applyAdds {α : Type} [Add α] (us : List (String × α))
    (l : List (String × α)) (h : (keysOf l).Nodup) :
    (keysOf (applyAdds us l)).Nodup := by
  induction us generalizing l with
  | nil => exact h
  | cons u us ih =>
    rw [show applyAdds (u :: us) l = applyAdds us (alAdd u.1 u.2 l) from rfl]
    exact ih _ (nodup_keysOf_alAdd _ _ _ h)

theorem sum_vals_alAdd {α : Type} [AddCommMonoid α] (k : String) (x : α)
    (l : List (String × α)) :
    ((alAdd k x l).map (·.2)).sum = (l.map (·.2)).sum + x := by
  induction l with
  | nil => simp [alAdd]
  | cons p t ih =>
    obtain ⟨k1, v⟩ := p
    by_cases h1 : k1 = k
    · subst h1
      simp [alAdd, add_assoc, add_comm x]
    · simp [alAdd, h1, ih, add_assoc]

theorem sum_vals_applyAdds {α : Type} [AddCommMonoid α] (us : List (String × α))
    (l : List (String × α)) :
    ((applyAdds us l).map (·.2)).sum = (l.map (·.2)).sum + (us.map (·.2)).sum := by
  induction us generalizing l with
  | nil => simp [applyAdds]
  | cons u us ih =>
    rw [show applyAdds (u :: us) l = applyAdds us (alAdd u.1 u.2 l) from rfl, ih,
      sum_vals_alAdd]
    simp [add_assoc]

theorem lookupD_rebuild {α : Type} (l : List (String × α)) (d : α)
    (h : (keysOf l).Nodup) :
    (keysOf l).map (fun k => (k, lookupD l k d)) = l := by
  induction l with
  | nil => rfl
  | cons p t ih =>
    obtain ⟨k1, v⟩ := p
    rw [show keysOf ((k1, v) :: t) = k1 :: keysOf t from rfl] at h ⊢
    obtain ⟨hk1, ht⟩ := List.nodup_cons.mp h
    rw [List.map_cons]
    congr 1
    · simp [lookupD]
    · have hmc : List.map (fun k => (k, lookupD ((k1, v) :: t) k d)) (keysOf t)
          = List.map (fun k => (k, lookupD t k d)) (keysOf t) := by
        apply List.map_congr_left
        intro a ha
        have hne : ¬ k1 = a := fun hh => hk1 (hh ▸ ha)
        simp [lookupD, hne]
      rw [hmc, ih ht]

theorem vals_ge_one_alAdd (k : String) (x : ℕ) (l : List (String × ℕ))
    (hl : ∀ p ∈ l, 1 ≤ p.2) (hx : 1 ≤ x) :
    ∀ p ∈ alAdd k x l, 1 ≤ p.2 := by
  induction l with
  | nil =>
    intro p hp
    simp only [alAdd, List.mem_singleton] at hp
    subst hp; exact hx
  | cons q t ih =>
    obtain ⟨k1, v⟩ := q
    intro p hp
    by_cases h1 : k1 = k
    · subst h1
      simp only [alAdd, if_pos rfl] at hp
      cases hp with
      | head => exact le_add_right (hl (k1, v) (List.mem_cons_self _ _))
      | tail b hp => exact hl p (List.mem_cons_of_mem _ hp)
    · simp only [alAdd, if_neg h1] at hp
      cases hp with
      | head => exact hl (k1, v) (List.mem_cons_self _ _)
      | tail b hp => exact ih (fun q hq => hl q (List.mem_cons_of_mem _ hq)) p hp

theorem vals_ge_one_applyAdds (us : List (String × ℕ)) (l : List (String × ℕ))
    (hl : ∀ p ∈ l, 1 ≤ p.2) (hus : ∀ u ∈ us, 1 ≤ u.2) :
    ∀ p ∈ applyAdds us l, 1 ≤ p.2 := by
  induction us generalizing l with
  | nil => exact hl
  | cons u us ih =>
    rw [show applyAdds (u :: us) l = applyAdds us (alAdd u.1 u.2 l) from rfl]
    exact ih _
      (vals_ge_one_alAdd _ _ _ hl (hus u (by simp)))
      (fun q hq => hus q (List.mem_cons_of_mem _ hq))

/-! Lemmas about the stable descending insertion sort. -/

theorem insertByKey_perm {α : Type} (key : α → ℚ) (x : α) (l : List α) :
    (insertByKey key x l).Perm (x :: l) := by
  induction l with
  | nil => exact List.Perm.refl _
  | cons y t ih =>
    simp only [insertByKey]
    by_cases h : key y ≤ key x
    · rw [if_pos h]
    · rw [if_neg h]
      exact (ih.cons y).trans (List.Perm.swap x y t)

theorem sortByKey_perm {α : Type} (key : α → ℚ) (l : List α) :
    (sortByKey key l).Perm l := by
  induction l with
  | nil => exact List.Perm.refl _
  | cons x t ih =>
    simp only [sortByKey]
    exact (insertByKey_perm key x (sortByKey key t)).trans (ih.cons x)

theorem pairwise_insertByKey {α : Type} (key : α → ℚ) (x : α) (l : List α)
    (h : l.Pairwise (fun a b => key b ≤ key a)) :
    (insertByKey key x l).Pairwise (fun a b => key b ≤ key a) := by
  induction l with
  | nil => simp [insertByKey]
  | cons y t ih =>
    obtain ⟨hy, ht⟩ := List.pairwise_cons.mp h
    simp only [insertByKey]
    by_cases hc : key y ≤ key x
    · rw [if_pos hc]
      refine List.pairwise_cons.mpr ⟨?_, h⟩
      intro z hz
      rcases List.mem_cons.mp hz with rfl | hz
      · exact hc
      · exact le_trans (hy z hz) hc
    · rw [if_neg hc]
      refine List.pairwise_cons.mpr ⟨?_, ih ht⟩
      intro z hz
      have hz2 := (insertByKey_perm key x t).mem_iff.mp hz
      rcases List.mem_cons.mp hz2 with rfl | hz2
      · exact (not_le.mp hc).le
      · exact hy z hz2

theorem pairwise_sortByKey {α : Type} (key : α → ℚ) (l : List α) :
    (sortByKey key l).Pairwise (fun a b => key b ≤ key a) := by
  induction l with
  | nil => simp [sortByKey]
  | cons x t ih =>
    simp only [sortByKey]
    exact pairwise_insertByKey key x _ ih

theorem filter_insertByKey_pos {α : Type} (key : α → ℚ) (x : α) (l : List α)
    (c : ℚ) (hx : key x = c) :
    (insertByKey key x l).filter (fun a => key a = c)
      = x :: l.filter (fun a => key a = c) := by
  induction l with
  | nil => simp [insertByKey, hx]
  | cons y t ih =>
    simp only [insertByKey]
    by_cases hc : key y ≤ key x
    · rw [if_pos hc, List.filter_cons_of_pos (by simp [hx])]
    · rw [if_neg hc]
      have hyne : ¬ key y = c := fun hh => hc (le_of_eq (hh.trans hx.symm))
      rw [List.filter_cons_of_neg (by simp [hyne]), ih,
        List.filter_cons_of_neg (by simp [hyne])]

theorem filter_insertByKey_neg {α : Type} (key : α → ℚ) (x : α) (l : List α)
    (c : ℚ) (hx : ¬ key x = c) :
    (insertByKey key x l).filter (fun a => key a = c)
      = l.filter (fun a => key a = c) := by
  induction l with
  | nil => simp [insertByKey, hx]
  | cons y t ih =>
    simp only [insertByKey]
    by_cases hc : key y ≤ key x
    · rw [if_pos hc, List.filter_cons_of_neg (by simp [hx])]
    · rw [if_neg hc]
      by_cases hy : key y = c
      · rw [List.filter_cons_of_pos (by simp [hy]), ih,
          List.filter_cons_of_pos (by simp [hy])]
      · rw [List.filter_cons_of_neg (by simp [hy]), ih,
          List.filter_cons_of_neg (by simp [hy])]

theorem filter_sortByKey {α : Type} (key : α → ℚ) (l : List α) (c : ℚ) :
    (sortByKey key l).filter (fun a => key a = c)
      = l.filter (fun a => key a = c) := by
  induction l with
  | nil => rfl
  | cons x t ih =>
    simp only [sortByKey]
    by_cases hx : key x = c
    · rw [filter_insertByKey_pos key x _ c hx, ih,
        List.filter_cons_of_pos (by simp [hx])]
    · rw [filter_insertByKey_neg key x _ c hx, ih,
        List.filter_cons_of_neg (by simp [hx])]

theorem sorted_desc_unique {α : Type} (key : α → ℚ) (l1 l2 : List α)
    (hp : l1.Perm l2)
    (h1 : l1.Pairwise (fun a b => key b ≤ key a))
    (h2 : l2.Pairwise (fun a b => key b ≤ key a))
    (hn : (l1.map key).Nodup) : l1 = l2 := by
  have hn1 : l1.Pairwise (fun a b => key a ≠ key b) := List.pairwise_map.mp hn
  have hn2 : l2.Pairwise (fun a b => key a ≠ key b) := by
    have hh : (l2.map key).Nodup := (hp.map key).nodup_iff.mp hn
    exact List.pairwise_map.mp hh
  have hs1 : l1.Pairwise (fun a b => key b < key a) := by
    refine (h1.and hn1).imp ?_
    rintro a b ⟨hle, hne⟩
    exact lt_of_le_of_ne hle (fun hh => hne hh.symm)
  have hs2 : l2.Pairwise (fun a b => key b < key a) := by
    refine (h2.and hn2).imp ?_
    rintro a b ⟨hle, hne⟩
    exact lt_of_le_of_ne hle (fun hh => hne hh.symm)
  haveI : IsAntisymm α (fun a b => key b < key a) :=
    ⟨fun a b hab hba => absurd hab (lt_asymm hba)⟩
  exact List.eq_of_perm_of_sorted hp hs1 hs2

/-! Lemmas about the string splitting. -/

theorem splitCh_ne_nil (c : Char) (l : List Char) : splitCh c l ≠ [] := by
  induction l with
  | nil => simp [splitCh]
  | cons a t ih =>
    simp only [splitCh]
    by_cases h : a = c
    · rw [if_pos h]; simp
    · rw [if_neg h]
      cases hsp : splitCh c t with
      | nil => simp
      | cons q r => simp

theorem length_splitCh (c : Char) (l : List Char) :
    (splitCh c l).length = l.count c + 1 := by
  induction l with
  | nil => simp [splitCh]
  | cons a t ih =>
    simp only [splitCh]
    by_cases h : a = c
    · subst h
      rw [if_pos rfl]
      simp [List.count_cons, ih]
    · rw [if_neg h]
      cases hsp : splitCh c t with
      | nil => exact absurd hsp (splitCh_ne_nil c t)
      | cons q r =>
        rw [hsp] at ih
        simp only [List.length_cons] at ih ⊢
        rw [ih, List.count_cons]
        have hne : ¬ c = a := fun hh => h hh.symm
        simp [hne, h]

theorem not_mem_splitCh (c : Char) (l : List Char) :
    ∀ p ∈ splitCh c l, c ∉ p := by
  induction l with
  | nil =>
    intro p hp
    simp only [splitCh, List.mem_singleton] at hp
    subst hp; simp
  | cons a t ih =>
    intro p hp
    simp only [splitCh] at hp
    by_cases h : a = c
    · rw [if_pos h] at hp
      cases hp with
      | head => simp
      | tail b hp => exact ih p hp
    · rw [if_neg h] at hp
      cases hsp : splitCh c t with
      | nil => exact absurd hsp (splitCh_ne_nil c t)
      | cons q r =>
        rw [hsp] at hp
        cases hp with
        | head =>
          intro hcon
          rcases List.mem_cons.mp hcon with hh | hh
          · exact h hh.symm
          · exact ih q (hsp ▸ List.mem_cons_self _ _) hh
        | tail b hp =>
          exact ih p (hsp ▸ List.mem_cons_of_mem _ hp)

theorem split_roles_some_length (s : String) :
    (split_roles (some s)).length = s.data.count '/' + 1 := by
  simp [split_roles, pySplitSlash, length_splitCh]

theorem split_roles_some_ne_nil (s : String) : split_roles (some s) ≠ [] := by
  intro hcon
  have hlen := split_roles_some_length s
  rw [hcon] at hlen
  simp at hlen

/-! Projection lemmas: the analyze_data loops as keyed-addition folds. -/

theorem applyAdds_append {α : Type} [Add α] (us vs l : List (String × α)) :
    applyAdds (us ++ vs) l = applyAdds vs (applyAdds us l) := by
  simp only [applyAdds, List.foldl_append]

theorem foldl_bumpProd_prodCosts (cpr : ℚ) (roles : List String) (st : AnalysisState) :
    (roles.foldl (bumpProd cpr) st).prodCosts
      = applyAdds (roles.map (fun r => (pyStrip r, cpr))) st.prodCosts := by
  induction roles generalizing st with
  | nil => rfl
  | cons r t ih =>
    rw [List.foldl_cons, ih]
    rfl

theorem foldl_bumpProd_prodCounts (cpr : ℚ) (roles : List String) (st : AnalysisState) :
    (roles.foldl (bumpProd cpr) st).prodCounts
      = applyAdds (roles.map (fun r => (pyStrip r, (1 : ℕ)))) st.prodCounts := by
  induction roles generalizing st with
  | nil => rfl
  | cons r t ih =>
    rw [List.foldl_cons, ih]
    rfl

theorem foldl_bumpProd_prodDeptCost (cpr : ℚ) (roles : List String) (st : AnalysisState) :
    (roles.foldl (bumpProd cpr) st).prodDeptCost
      = st.prodDeptCost + (roles.map (fun _ => cpr)).sum := by
  induction roles generalizing st with
  | nil => simp
  | cons r t ih =>
    rw [List.foldl_cons, ih]
    simp [bumpProd, add_assoc]

theorem foldl_bumpProd_offCosts (cpr : ℚ) (roles : List String) (st : AnalysisState) :
    (roles.foldl (bumpProd cpr) st).offCosts = st.offCosts := by
  induction roles generalizing st with
  | nil => rfl
  | cons r t ih =>
    rw [List.foldl_cons, ih]
    rfl

theorem foldl_bumpProd_offCounts (cpr : ℚ) (roles : List String) (st : AnalysisState) :
    (roles.foldl (bumpProd cpr) st).offCounts = st.offCounts := by
  induction roles generalizing st with
  | nil => rfl
  | cons r t ih =>
    rw [List.foldl_cons, ih]
    rfl

theorem foldl_bumpProd_offDeptCost (cpr : ℚ) (roles : List String) (st : AnalysisState) :
    (roles.foldl (bumpProd cpr) st).offDeptCost = st.offDeptCost := by
  induction roles generalizing st with
  | nil => rfl
  | cons r t ih =>
    rw [List.foldl_cons, ih]
    rfl

theorem foldl_bumpOff_offCosts (cpr : ℚ) (roles : List String) (st : AnalysisState) :
    (roles.foldl (bumpOff cpr) st).offCosts
      = applyAdds (roles.map (fun r => (pyStrip r, cpr))) st.offCosts := by
  induction roles generalizing st with
  | nil => rfl
  | cons r t ih =>
    rw [List.foldl_cons, ih]
    rfl

theorem foldl_bumpOff_offCounts (cpr : ℚ) (roles : List String) (st : AnalysisState) :
    (roles.foldl (bumpOff cpr) st).offCounts
      = applyAdds (roles.map (fun r => (pyStrip r, (1 : ℕ)))) st.offCounts := by
  induction roles generalizing st with
  | nil => rfl
  | cons r t ih =>
    rw [List.foldl_cons, ih]
    rfl

theorem foldl_bumpOff_offDeptCost (cpr : ℚ) (roles : List String) (st : AnalysisState) :
    (roles.foldl (bumpOff cpr) st).offDeptCost
      = st.offDeptCost + (roles.map (fun _ => cpr)).sum := by
  induction roles generalizing st with
  | nil => simp
  | cons r t ih =>
    rw [List.foldl_cons, ih]
    simp [bumpOff, add_assoc]

theorem foldl_bumpOff_prodCosts (cpr : ℚ) (roles : List String) (st : AnalysisState) :
    (roles.foldl (bumpOff cpr) st).prodCosts = st.prodCosts := by
  induction roles generalizing st with
  | nil => rfl
  | cons r t ih =>
    rw [List.foldl_cons, ih]
    rfl

theorem foldl_bumpOff_prodCounts (cpr : ℚ) (roles : List String) (st : AnalysisState) :
    (roles.foldl (bumpOff cpr) st).prodCounts = st.prodCounts := by
  induction roles generalizing st with
  | nil => rfl
  | cons r t ih =>
    rw [List.foldl_cons, ih]
    rfl

theorem foldl_bumpOff_prodDeptCost (cpr : ℚ) (roles : List String) (st : AnalysisState) :
    (roles.foldl (bumpOff cpr) st).prodDeptCost = st.prodDeptCost := by
  induction roles generalizing st with
  | nil => rfl
  | cons r t ih =>
    rw [List.foldl_cons, ih]
    rfl

theorem processRow_prodCosts (st : AnalysisState) (row : Record) :
    (processRow st row).prodCosts = applyAdds (prodCostUpdates row) st.prodCosts := by
  cases hp : row.production with
  | none =>
    cases ho : row.office with
    | none => simp [processRow, hp, ho, prodCostUpdates, applyAdds]
    | some s =>
      simp [processRow, hp, ho, prodCostUpdates, applyAdds, offStep,
        foldl_bumpOff_prodCosts]
  | some s =>
    cases ho : row.office with
    | none =>
      simp [processRow, hp, ho, prodCostUpdates, prodStep, foldl_bumpProd_prodCosts]
    | some s2 =>
      simp [processRow, hp, ho, prodCostUpdates, prodStep, offStep,
        foldl_bumpOff_prodCosts, foldl_bumpProd_prodCosts]

theorem processRow_prodCounts (st : AnalysisState) (row : Record) :
    (processRow st row).prodCounts = applyAdds (prodCountUpdates row) st.prodCounts := by
  cases hp : row.production with
  | none =>
    cases ho : row.office with
    | none => simp [processRow, hp, ho, prodCountUpdates, applyAdds]
    | some s =>
      simp [processRow, hp, ho, prodCountUpdates, applyAdds, offStep,
        foldl_bumpOff_prodCounts]
  | some s =>
    cases ho : row.office with
    | none =>
      simp [processRow, hp, ho, prodCountUpdates, prodStep, foldl_bumpProd_prodCounts]
    | some s2 =>
      simp [processRow, hp, ho, prodCountUpdates, prodStep, offStep,
        foldl_bumpOff_prodCounts, foldl_bumpProd_prodCounts]

theorem processRow_offCosts (st : AnalysisState) (row : Record) :
    (processRow st row).offCosts = applyAdds (offCostUpdates row) st.offCosts := by
  cases hp : row.production with
  | none =>
    cases ho : row.office with
    | none => simp [processRow, hp, ho, offCostUpdates, applyAdds]
    | some s =>
      simp [processRow, hp, ho, offCostUpdates, offStep, foldl_bumpOff_offCosts]
  | some s =>
    cases ho : row.office with
    | none =>
      simp [processRow, hp, ho, offCostUpdates, applyAdds, prodStep,
        foldl_bumpProd_offCosts]
    | some s2 =>
      simp [processRow, hp, ho, offCostUpdates, prodStep, offStep,
        foldl_bumpProd_offCosts, foldl_bumpOff_offCosts]

theorem processRow_offCounts (st : AnalysisState) (row : Record) :
    (processRow st row).offCounts = applyAdds (offCountUpdates row) st.offCounts := by
  cases hp : row.production with
  | none =>
    cases ho : row.office with
    | none => simp [processRow, hp, ho, offCountUpdates, applyAdds]
    | some s =>
      simp [processRow, hp, ho, offCountUpdates, offStep, foldl_bumpOff_offCounts]
  | some s =>
    cases ho : row.office with
    | none =>
      simp [processRow, hp, ho, offCountUpdates, applyAdds, prodStep,
        foldl_bumpProd_offCounts]
    | some s2 =>
      simp [processRow, hp, ho, offCountUpdates, prodStep, offStep,
        foldl_bumpProd_offCounts, foldl_bumpOff_offCounts]

theorem map_snd_pairs {β : Type} (f : String → String) (c : β) (roles : List String) :
    ((roles.map (fun r => (f r, c))).map (fun u : String × β => u.2))
      = roles.map (fun _ => c) := by
  rw [List.map_map]
  rfl

theorem processRow_prodDeptCost (st : AnalysisState) (row : Record) :
    (processRow st row).prodDeptCost
      = st.prodDeptCost + ((prodCostUpdates row).map (·.2)).sum := by
  cases hp : row.production with
  | none =>
    cases ho : row.office with
    | none => simp [processRow, hp, ho, prodCostUpdates]
    | some s =>
      simp [processRow, hp, ho, prodCostUpdates, offStep, foldl_bumpOff_prodDeptCost]
  | some s =>
    have hupd : prodCostUpdates row
        = (split_roles (some s)).map
            (fun r => (pyStrip r, row.laborCost / ((split_roles (some s)).length : ℚ))) := by
      simp [prodCostUpdates, hp]
    rw [hupd, map_snd_pairs]
    cases ho : row.office with
    | none =>
      simp [processRow, hp, ho, prodStep, foldl_bumpProd_prodDeptCost]
    | some s2 =>
      simp [processRow, hp, ho, prodStep, offStep, foldl_bumpOff_prodDeptCost,
        foldl_bumpProd_prodDeptCost]

theorem processRow_offDeptCost (st : AnalysisState) (row : Record) :
    (processRow st row).offDeptCost
      = st.offDeptCost + ((offCostUpdates row).map (·.2)).sum := by
  cases ho : row.office with
  | none =>
    cases hp : row.production with
    | none => simp [processRow, hp, ho, offCostUpdates]
    | some s =>
      simp [processRow, hp, ho, offCostUpdates, prodStep, foldl_bumpProd_offDeptCost]
  | some s =>
    have hupd : offCostUpdates row
        = (split_roles (some s)).map
            (fun r => (pyStrip r, row.laborCost / ((split_roles (some s)).length : ℚ))) := by
      simp [offCostUpdates, ho]
    rw [hupd, map_snd_pairs]
    cases hp : row.production with
    | none =>
      simp [processRow, hp, ho, offStep, foldl_bumpOff_offDeptCost]
    | some s2 =>
      simp [processRow, hp, ho, prodStep, offStep, foldl_bumpProd_offDeptCost,
        foldl_bumpOff_offDeptCost]

theorem foldl_processRow_prodCosts (rows : List Record) (st : AnalysisState) :
    (rows.foldl processRow st).prodCosts
      = applyAdds ((rows.map prodCostUpdates).flatten) st.prodCosts := by
  induction rows generalizing st with
  | nil => simp [applyAdds]
  | cons row rows ih =>
    rw [List.foldl_cons, ih, processRow_prodCosts, List.map_cons, List.flatten_cons,
      applyAdds_append]

theorem foldl_processRow_prodCounts (rows : List Record) (st : AnalysisState) :
    (rows.foldl processRow st).prodCounts
      = applyAdds ((rows.map prodCountUpdates).flatten) st.prodCounts := by
  induction rows generalizing st with
  | nil => simp [applyAdds]
  | cons row rows ih =>
    rw [List.foldl_cons, ih, processRow_prodCounts, List.map_cons, List.flatten_cons,
      applyAdds_append]

theorem foldl_processRow_offCosts (rows : List Record) (st : AnalysisState) :
    (rows.foldl processRow st).offCosts
      = applyAdds ((rows.map offCostUpdates).flatten) st.offCosts := by
  induction rows generalizing st with
  | nil => simp [applyAdds]
  | cons row rows ih =>
    rw [List.foldl_cons, ih, processRow_offCosts, List.map_cons, List.flatten_cons,
      applyAdds_append]

theorem foldl_processRow_offCounts (rows : List Record) (st : AnalysisState) :
    (rows.foldl processRow st).offCounts
      = applyAdds ((rows.map offCountUpdates).flatten) st.offCounts := by
  induction rows generalizing st with
  | nil => simp [applyAdds]
  | cons row rows ih =>
    rw [List.foldl_cons, ih, processRow_offCounts, List.map_cons, List.flatten_cons,
      applyAdds_append]

theorem foldl_processRow_prodDeptCost (rows : List Record) (st : AnalysisState) :
    (rows.foldl processRow st).prodDeptCost
      = st.prodDeptCost + (((rows.map prodCostUpdates).flatten).map (·.2)).sum := by
  induction rows generalizing st with
  | nil => simp
  | cons row rows ih =>
    rw [List.foldl_cons, ih, processRow_prodDeptCost, List.map_cons,
      List.flatten_cons]
    simp [add_assoc]

theorem foldl_processRow_offDeptCost (rows : List Record) (st : AnalysisState) :
    (rows.foldl processRow st).offDeptCost
      = st.offDeptCost + (((rows.map offCostUpdates).flatten).map (·.2)).sum := by
  induction rows generalizing st with
  | nil => simp
  | cons row rows ih =>
    rw [List.foldl_cons, ih, processRow_offDeptCost, List.map_cons,
      List.flatten_cons]
    simp [add_assoc]

/-! Support lemmas for the per-record and order-independence claims. -/

theorem sum_filter_map_pairs {β : Type} [AddCommMonoid β] (g : String → String)
    (c : β) (roles : List String) (k : String) :
    (((roles.map (fun r => (g r, c))).filter (fun u => u.1 = k)).map (·.2)).sum
      = (roles.countP (fun r => g r = k)) • c := by
  induction roles with
  | nil => simp
  | cons r t ih =>
    rw [List.map_cons]
    by_cases h : g r = k
    · rw [List.filter_cons_of_pos (by simp [h]), List.map_cons, List.sum_cons, ih,
        List.countP_cons_of_pos _ _ (by simp [h]), succ_nsmul, add_comm]
    · rw [List.filter_cons_of_neg (by simp [h]), ih,
        List.countP_cons_of_neg _ _ (by simp [h])]

theorem countP_eq_one_of_nodup_mem {a : String} {l : List String}
    (hn : l.Nodup) (hm : a ∈ l) :
    l.countP (fun x => x = a) = 1 := by
  induction l with
  | nil => cases hm
  | cons b t ih =>
    obtain ⟨hb, ht⟩ := List.nodup_cons.mp hn
    rcases List.mem_cons.mp hm with rfl | hm2
    · rw [List.countP_cons_of_pos _ _ (by simp)]
      have hz : t.countP (fun x => x = a) = 0 := by
        apply List.countP_eq_zero.mpr
        intro x hx
        simp only [decide_eq_true_eq]
        exact fun hh => hb (hh ▸ hx)
      rw [hz]
    · have hbne : ¬ (b = a) := fun hh => hb (hh ▸ hm2)
      rw [List.countP_cons_of_neg _ _ (by simp [hbne])]
      exact ih ht hm2

theorem countP_map_pyStrip (roles : List String) (k : String) :
    roles.countP (fun r => pyStrip r = k)
      = (roles.map pyStrip).countP (fun x => x = k) := by
  rw [List.countP_map]
  rfl

theorem prodCountUpdates_vals_one (row : Record) :
    ∀ u ∈ prodCountUpdates row, u.2 = 1 := by
  intro u hu
  cases hp : row.production with
  | none => rw [prodCountUpdates, hp] at hu; cases hu
  | some s =>
    rw [prodCountUpdates, hp] at hu
    rcases List.mem_map.mp hu with ⟨r, hr, rfl⟩
    rfl

theorem offCountUpdates_vals_one (row : Record) :
    ∀ u ∈ offCountUpdates row, u.2 = 1 := by
  intro u hu
  cases ho : row.office with
  | none => rw [offCountUpdates, ho] at hu; cases hu
  | some s =>
    rw [offCountUpdates, ho] at hu
    rcases List.mem_map.mp hu with ⟨r, hr, rfl⟩
    rfl

theorem aggregate_prodCounts_ge_one (rows : List Record) :
    ∀ p ∈ (aggregateRecords rows).prodCounts, 1 ≤ p.2 := by
  rw [aggregateRecords, foldl_processRow_prodCounts]
  apply vals_ge_one_applyAdds
  · intro p hp
    simp [initState] at hp
  · intro u hu
    rcases List.mem_flatten.mp hu with ⟨l, hl, hul⟩
    rcases List.mem_map.mp hl with ⟨row, hrow, rfl⟩
    exact le_of_eq (prodCountUpdates_vals_one row u hul).symm

theorem aggregate_offCounts_ge_one (rows : List Record) :
    ∀ p ∈ (aggregateRecords rows).offCounts, 1 ≤ p.2 := by
  rw [aggregateRecords, foldl_processRow_offCounts]
  apply vals_ge_one_applyAdds
  · intro p hp
    simp [initState] at hp
  · intro u hu
    rcases List.mem_flatten.mp hu with ⟨l, hl, hul⟩
    rcases List.mem_map.mp hl with ⟨row, hrow, rfl⟩
    exact le_of_eq (offCountUpdates_vals_one row u hul).symm

theorem aggregate_prodCosts_keys_nodup (rows : List Record) :
    (keysOf (aggregateRecords rows).prodCosts).Nodup := by
  rw [aggregateRecords, foldl_processRow_prodCosts]
  exact nodup_keysOf_applyAdds _ _ (by simp [initState, keysOf])

theorem aggregate_offCosts_keys_nodup (rows : List Record) :
    (keysOf (aggregateRecords rows).offCosts).Nodup := by
  rw [aggregateRecords, foldl_processRow_offCosts]
  exact nodup_keysOf_applyAdds _ _ (by simp [initState, keysOf])

theorem flatten_reverse_perm {α : Type} (L : List (List α)) :
    (L.reverse.flatten).Perm L.flatten := by
  induction L with
  | nil => exact List.Perm.refl _
  | cons a L ih =>
    rw [List.reverse_cons, List.flatten_append]
    refine List.Perm.trans List.perm_append_comm ?_
    have h2 : ([a].flatten ++ L.reverse.flatten) = a ++ L.reverse.flatten := by simp
    have h3 : (a :: L).flatten = a ++ L.flatten := rfl
    rw [h2, h3]
    exact ih.append_left a

/-! Claim theorems. -/

/-- C6: analyze_data on a missing or empty record set fails with the
empty-dataset error, and any failing ingest call leaves the stored analyzer
results exactly as they were (all-or-nothing per call). -/
theorem c6_empty_dataset_all_or_nothing :
    ∀ (a : DataAnalyzer) (df : Option (List Record)),
      ((df = none ∨ df = some []) →
        DataAnalyzer.analyzeData a df = (a, Except.error AnalyzeError.emptyDataset))
      ∧ (∀ e, (DataAnalyzer.analyzeData a df).2 = Except.error e
          → (DataAnalyzer.analyzeData a df).1 = a) := by
  intro a df
  constructor
  · rintro (rfl | rfl)
    · rfl
    · simp [DataAnalyzer.analyzeData, analyze_data]
  · intro e
    cases hres : analyze_data df with
    | error e2 => intro h2; simp [DataAnalyzer.analyzeData, hres]
    | ok st =>
      intro h2
      simp [DataAnalyzer.analyzeData, hres] at h2

/-- C6 witness: a concrete failing call at a concrete analyzer. -/
theorem c6_witness :
    DataAnalyzer.analyzeData ⟨none⟩ none
      = (⟨none⟩, Except.error AnalyzeError.emptyDataset) :=
  (c6_empty_dataset_all_or_nothing ⟨none⟩ none).1 (Or.inl rfl)

/-- C10: splitting a present string always yields at least one piece, so the
cost division of analyze_data never has a zero divisor when the responsible
field is not NA. -/
theorem c10_split_never_empty :
    (∀ s : String, 1 ≤ (split_roles (some s)).length)
    ∧ (∀ f : Option String, f.isSome = true
        → (((split_roles f).length : ℚ) ≠ 0 ∧ (split_roles f).length ≠ 0)) := by
  constructor
  · intro s
    rw [split_roles_some_length]
    exact Nat.le_add_left 1 _
  · intro f hf
    rcases Option.isSome_iff_exists.mp hf with ⟨s, rfl⟩
    have h1 : (split_roles (some s)).length ≠ 0 := by
      rw [split_roles_some_length]
      exact Nat.succ_ne_zero _
    exact ⟨Nat.cast_ne_zero.mpr h1, h1⟩

/-- C10 witness: the empty string still yields one piece and a nonzero
divisor. -/
theorem c10_witness :
    ((split_roles (some "")).length : ℚ) ≠ 0 ∧ (split_roles (some "")).length ≠ 0 :=
  c10_split_never_empty.2 (some "") rfl

/-- C5 counterexample: an empty-string field is not NA in pandas, so
_split_roles returns the one-element list with the empty role name, not the
empty sequence the claim promises for an empty field. -/
theorem c5_counterexample :
    split_roles (some "") = [""] ∧ split_roles (some "") ≠ [] := by
  constructor
  · with_unfolding_all rfl
  · with_unfolding_all decide

/-- C5 (amended): a missing or null field maps to the empty sequence, but a
present empty string is treated as populated and yields the single
empty-string role; a present string is split on the slash, every piece is
trimmed, empty pieces are retained (the number of pieces is always the
slash count plus one) and pieces contain no slash, in input order. -/
theorem c5_amended_split_behavior :
    split_roles none = []
    ∧ split_roles (some "") = [""]
    ∧ (∀ s : String, (split_roles (some s)).length = s.data.count '/' + 1)
    ∧ (∀ s : String, split_roles (some s)
        = (splitCh '/' s.data).map (fun cs => pyStrip (String.mk cs)))
    ∧ (∀ s : String, ∀ p ∈ splitCh '/' s.data, '/' ∉ p) := by
  refine ⟨rfl, by with_unfolding_all rfl, split_roles_some_length, ?_, ?_⟩
  · intro s
    rw [show split_roles (some s) = (pySplitSlash s).map pyStrip from rfl,
      pySplitSlash, List.map_map]
    rfl
  · intro s
    exact not_mem_splitCh '/' s.data

/-- C5 amended witness: concrete split with trimming, retention of empty
pieces and order. -/
theorem c5_amended_witness :
    (split_roles (some "Резка / Гибка")).length
      = ("Резка / Гибка".data.count '/') + 1 :=
  c5_amended_split_behavior.2.2.1 "Резка / Гибка"

/-- C1: a record whose production (resp. office) field is populated with
distinct trimmed roles adds exactly laborCost/N to each of those N role
cost buckets and exactly 1 to each incidence count, and after analyze_data
each department total cost is exactly the sum of its role bucket costs. -/
theorem c1_cost_split_conservation :
    (∀ (st : AnalysisState) (row : Record) (s : String),
      row.production = some s →
      ((split_roles (some s)).map pyStrip).Nodup →
      ∀ r ∈ split_roles (some s),
        lookupD (processRow st row).prodCosts (pyStrip r) 0
          = lookupD st.prodCosts (pyStrip r) 0
            + row.laborCost / (((split_roles (some s)).length : ℚ))
        ∧ lookupD (processRow st row).prodCounts (pyStrip r) 0
          = lookupD st.prodCounts (pyStrip r) 0 + 1)
    ∧ (∀ (st : AnalysisState) (row : Record) (s : String),
      row.office = some s →
      ((split_roles (some s)).map pyStrip).Nodup →
      ∀ r ∈ split_roles (some s),
        lookupD (processRow st row).offCosts (pyStrip r) 0
          = lookupD st.offCosts (pyStrip r) 0
            + row.laborCost / (((split_roles (some s)).length : ℚ))
        ∧ lookupD (processRow st row).offCounts (pyStrip r) 0
          = lookupD st.offCounts (pyStrip r) 0 + 1)
    ∧ (∀ (rows : List Record) (st : AnalysisState),
        analyze_data (some rows) = Except.ok st →
        st.prodDeptCost = (st.prodCosts.map (·.2)).sum
        ∧ st.offDeptCost = (st.offCosts.map (·.2)).sum) := by
  refine ⟨?_, ?_, ?_⟩
  · intro st row s hp hn r hr
    have hc : (split_roles (some s)).countP (fun r2 => pyStrip r2 = pyStrip r) = 1 := by
      rw [countP_map_pyStrip]
      exact countP_eq_one_of_nodup_mem hn (List.mem_map_of_mem _ hr)
    constructor
    · rw [processRow_prodCosts, lookupD_applyAdds,
        show prodCostUpdates row
          = (split_roles (some s)).map
              (fun r2 => (pyStrip r2, row.laborCost / ((split_roles (some s)).length : ℚ)))
          from by simp [prodCostUpdates, hp],
        sum_filter_map_pairs, hc, one_nsmul]
    · rw [processRow_prodCounts, lookupD_applyAdds,
        show prodCountUpdates row
          = (split_roles (some s)).map (fun r2 => (pyStrip r2, (1 : ℕ)))
          from by simp [prodCountUpdates, hp],
        sum_filter_map_pairs, hc, one_nsmul]
  · intro st row s ho hn r hr
    have hc : (split_roles (some s)).countP (fun r2 => pyStrip r2 = pyStrip r) = 1 := by
      rw [countP_map_pyStrip]
      exact countP_eq_one_of_nodup_mem hn (List.mem_map_of_mem _ hr)
    constructor
    · rw [processRow_offCosts, lookupD_applyAdds,
        show offCostUpdates row
          = (split_roles (some s)).map
              (fun r2 => (pyStrip r2, row.laborCost / ((split_roles (some s)).length : ℚ)))
          from by simp [offCostUpdates, ho],
        sum_filter_map_pairs, hc, one_nsmul]
    · rw [processRow_offCounts, lookupD_applyAdds,
        show offCountUpdates row
          = (split_roles (some s)).map (fun r2 => (pyStrip r2, (1 : ℕ)))
          from by simp [offCountUpdates, ho],
        sum_filter_map_pairs, hc, one_nsmul]
  · intro rows st hok
    have hne : ¬ rows = [] := by
      intro hnil
      subst hnil
      simp [analyze_data] at hok
    have hst : st = aggregateRecords rows := by
      simp [analyze_data, hne] at hok
      exact hok.symm
    subst hst
    constructor
    · rw [aggregateRecords, foldl_processRow_prodDeptCost,
        foldl_processRow_prodCosts, sum_vals_applyAdds]
      simp [initState]
    · rw [aggregateRecords, foldl_processRow_offDeptCost,
        foldl_processRow_offCosts, sum_vals_applyAdds]
      simp [initState]

/-- C1 witness: the two-role record of the specification scenario adds
exactly 100/2 to the Резка bucket. -/
theorem c1_witness :
    lookupD
        (processRow initState
          { laborCost := 100, production := some "Резка / Гибка"
          , office := some "Менеджер" }).prodCosts
        (pyStrip "Резка") 0
      = lookupD initState.prodCosts (pyStrip "Резка") 0
        + (100 : ℚ) / (((split_roles (some "Резка / Гибка")).length : ℚ)) :=
  (c1_cost_split_conservation.1 initState
    { laborCost := 100, production := some "Резка / Гибка"
    , office := some "Менеджер" }
    "Резка / Гибка" rfl (by with_unfolding_all decide) "Резка"
    (by with_unfolding_all decide)).1

theorem analyze_data_ok_eq (rows : List Record) (st : AnalysisState)
    (hok : analyze_data (some rows) = Except.ok st) :
    st = aggregateRecords rows := by
  have hne : ¬ rows = [] := by
    intro hnil
    subst hnil
    simp [analyze_data] at hok
  simp [analyze_data, hne] at hok
  exact hok.symm

/-- C7: on any state produced by analyze_data, create_pie_chart fails with
the empty-chart error exactly when the total of the chart sizes is 0, and
whenever the guard lets the geometry proceed the divisor total is positive,
so no division by zero happens. -/
theorem c7_empty_chart_iff_zero_total :
    ∀ (rows : List Record) (st : AnalysisState),
      analyze_data (some rows) = Except.ok st →
      (exceptIsError (create_pie_chart st) = true
        ↔ totalSize (get_role_data_for_chart st) = 0)
      ∧ (exceptIsError (create_pie_chart st) = false
        → 0 < totalSize (get_role_data_for_chart st)) := by
  intro rows st hok
  have hst := analyze_data_ok_eq rows st hok
  subst hst
  have hge : ∀ e ∈ get_role_data_for_chart (aggregateRecords rows), 1 ≤ e.size := by
    intro e he
    simp only [get_role_data_for_chart] at he
    rcases List.mem_append.mp he with h1 | h1
    · rcases List.mem_map.mp h1 with ⟨p, hp, rfl⟩
      exact aggregate_prodCounts_ge_one rows p hp
    · rcases List.mem_map.mp h1 with ⟨p, hp, rfl⟩
      exact aggregate_offCounts_ge_one rows p hp
  by_cases hnil : get_role_data_for_chart (aggregateRecords rows) = []
  · constructor
    · simp [create_pie_chart, hnil, exceptIsError, totalSize]
    · intro hfalse
      simp [create_pie_chart, hnil, exceptIsError] at hfalse
  · have hpos : 0 < totalSize (get_role_data_for_chart (aggregateRecords rows)) := by
      cases hcase : get_role_data_for_chart (aggregateRecords rows) with
      | nil => exact absurd hcase hnil
      | cons e t =>
        have h1 : 1 ≤ e.size := hge e (hcase ▸ List.mem_cons_self _ _)
        simp only [totalSize, hcase, List.map_cons, List.sum_cons]
        omega
    have hlab : ¬ ((get_role_data_for_chart (aggregateRecords rows)).map (·.label) = []) := by
      intro hcon
      exact hnil (List.map_eq_nil_iff.mp hcon)
    have hcreate : exceptIsError (create_pie_chart (aggregateRecords rows)) = false := by
      simp [create_pie_chart, hlab, exceptIsError]
    constructor
    · rw [hcreate]
      exact iff_of_false (by simp) (by omega)
    · intro _
      exact hpos

/-- C7 witness: a one-record aggregate has a positive chart total and does
not raise the empty-chart error. -/
theorem c7_witness :
    (exceptIsError (create_pie_chart
        (aggregateRecords [{ laborCost := 100, production := some "Резка", office := none }])) = true
      ↔ totalSize (get_role_data_for_chart
          (aggregateRecords [{ laborCost := 100, production := some "Резка", office := none }])) = 0)
    ∧ (exceptIsError (create_pie_chart
        (aggregateRecords [{ laborCost := 100, production := some "Резка", office := none }])) = false
      → 0 < totalSize (get_role_data_for_chart
          (aggregateRecords [{ laborCost := 100, production := some "Резка", office := none }]))) :=
  c7_empty_chart_iff_zero_total
    [{ laborCost := 100, production := some "Резка", office := none }] _
    (by with_unfolding_all rfl)

theorem rolesData_keys_nodup (rows : List Record) :
    ((rolesData (aggregateRecords rows)).map (fun r => (r.dept, r.role))).Nodup := by
  simp only [rolesData, List.map_append, List.map_map]
  apply List.Nodup.append
  · have hmap : (aggregateRecords rows).prodCosts.map
        ((fun r : RoleRow => (r.dept, r.role)) ∘ (fun p =>
          { dept := "Производство", role := p.1
          , count := lookupD (aggregateRecords rows).prodCounts p.1 0, cost := p.2 }))
        = (keysOf (aggregateRecords rows).prodCosts).map
            (fun k => ("Производство", k)) := by
      rw [keysOf, List.map_map]
      rfl
    rw [hmap]
    exact (aggregate_prodCosts_keys_nodup rows).map
      (fun a b hab => congrArg Prod.snd hab)
  · have hmap : (aggregateRecords rows).offCosts.map
        ((fun r : RoleRow => (r.dept, r.role)) ∘ (fun p =>
          { dept := "Офис", role := p.1
          , count := lookupD (aggregateRecords rows).offCounts p.1 0, cost := p.2 }))
        = (keysOf (aggregateRecords rows).offCosts).map (fun k => ("Офис", k)) := by
      rw [keysOf, List.map_map]
      rfl
    rw [hmap]
    exact (aggregate_offCosts_keys_nodup rows).map
      (fun a b hab => congrArg Prod.snd hab)
  · intro a ha hb
    rcases List.mem_map.mp ha with ⟨p, hp, rfl⟩
    rcases List.mem_map.mp hb with ⟨q, hq, hpq⟩
    have : "Офис" = "Производство" := congrArg Prod.fst hpq
    exact absurd this (by decide)

/-- C4: get_sorted_role_costs returns exactly the role table rows (one per
discovered role, keyed by department and role), ordered by cost descending,
and equal-cost rows keep their discovery order (stability, expressed as
preservation of every equal-cost class). -/
theorem c4_sorted_role_costs :
    ∀ (rows : List Record) (st : AnalysisState),
      analyze_data (some rows) = Except.ok st →
      ((get_sorted_role_costs st).Perm (rolesData st))
      ∧ ((rolesData st).map (fun r => (r.dept, r.role))).Nodup
      ∧ (get_sorted_role_costs st).Pairwise (fun a b => b.cost ≤ a.cost)
      ∧ (∀ c : ℚ, (get_sorted_role_costs st).filter (fun r => r.cost = c)
          = (rolesData st).filter (fun r => r.cost = c)) := by
  intro rows st hok
  have hst := analyze_data_ok_eq rows st hok
  subst hst
  refine ⟨sortByKey_perm _ _, rolesData_keys_nodup rows, pairwise_sortByKey _ _, ?_⟩
  intro c
  exact filter_sortByKey (fun r : RoleRow => r.cost) _ c

/-- C4 witness: the sorted table of a concrete aggregate is a permutation
of its role table. -/
theorem c4_witness :
    (get_sorted_role_costs
        (aggregateRecords [{ laborCost := 100, production := some "Резка", office := none }])).Perm
      (rolesData
        (aggregateRecords [{ laborCost := 100, production := some "Резка", office := none }])) :=
  (c4_sorted_role_costs
    [{ laborCost := 100, production := some "Резка", office := none }] _
    (by with_unfolding_all rfl)).1

/-! Chart geometry lemmas. -/

theorem accumWedges_map_label (total : ℕ) (start : ℝ) (items : List (String × ℕ)) :
    (accumWedges total start items).map (fun w => w.label) = items.map (fun p => p.1) := by
  induction items generalizing start with
  | nil => rfl
  | cons p t ih => simp [accumWedges, ih]

theorem accumWedges_map_width (total : ℕ) (start : ℝ) (items : List (String × ℕ)) :
    (accumWedges total start items).map (fun w => w.theta2 - w.theta1)
      = items.map (fun p => angleOf total p.2) := by
  induction items generalizing start with
  | nil => rfl
  | cons p t ih =>
    simp [accumWedges, ih, add_sub_cancel_left]

theorem accumWedges_head_theta1 (total : ℕ) (start : ℝ) (items : List (String × ℕ)) :
    ∀ w ∈ (accumWedges total start items).head?, w.theta1 = start := by
  cases items with
  | nil => intro w hw; cases hw
  | cons p t =>
    intro w hw
    simp only [accumWedges, List.head?_cons, Option.mem_def, Option.some.injEq] at hw
    rw [← hw]

theorem accumWedges_chain (total : ℕ) (start : ℝ) (items : List (String × ℕ)) :
    List.Chain' (fun w w2 => w.theta2 = w2.theta1) (accumWedges total start items) := by
  induction items generalizing start with
  | nil => simp [accumWedges]
  | cons p t ih =>
    rw [show accumWedges total start (p :: t)
        = { label := p.1, theta1 := start, theta2 := start + angleOf total p.2 }
          :: accumWedges total (start + angleOf total p.2) t from rfl]
    rw [List.chain'_cons']
    constructor
    · intro b hb
      rw [accumWedges_head_theta1 total (start + angleOf total p.2) t b hb]
    · exact ih _

theorem sum_angles (total : ℕ) (items : List (String × ℕ)) (hpos : 0 < total)
    (hsum : (items.map (fun p => p.2)).sum = total) :
    ((items.map (fun p => angleOf total p.2))).sum = 2 * Real.pi := by
  have h1 : ∀ (l : List (String × ℕ)), ((l.map (fun p => angleOf total p.2))).sum
      = (((l.map (fun p => p.2)).sum : ℕ) : ℝ) * ((2 * Real.pi) / (total : ℝ)) := by
    intro l
    induction l with
    | nil => simp
    | cons p t ih =>
      rw [List.map_cons, List.sum_cons, ih, List.map_cons, List.sum_cons,
        Nat.cast_add, angleOf]
      ring
  rw [h1, hsum]
  have hne : ((total : ℕ) : ℝ) ≠ 0 := Nat.cast_ne_zero.mpr (Nat.pos_iff_ne_zero.mp hpos)
  field_simp

theorem deptData_applyAdds (entries : List ChartEntry) :
    deptData entries = applyAdds (entries.map (fun e => (e.dept, e.size))) [] := by
  rw [deptData, applyAdds, List.foldl_map]

theorem deptData_sum (entries : List ChartEntry) :
    ((deptData entries).map (fun p => p.2)).sum = totalSize entries := by
  rw [deptData_applyAdds, sum_vals_applyAdds]
  simp only [List.map_map, List.map_nil, List.sum_nil, zero_add]
  rfl

theorem keysOf_applyAdds_firstOccur {α : Type} [Add α] (us : List (String × α))
    (l : List (String × α)) :
    keysOf (applyAdds us l)
      = (us.map (fun u => u.1)).foldl
          (fun acc d => if d ∈ acc then acc else acc ++ [d]) (keysOf l) := by
  induction us generalizing l with
  | nil => rfl
  | cons u us ih =>
    rw [show applyAdds (u :: us) l = applyAdds us (alAdd u.1 u.2 l) from rfl, ih,
      keysOf_alAdd, List.map_cons, List.foldl_cons]

theorem deptData_keys (entries : List ChartEntry) :
    keysOf (deptData entries) = firstAppearanceOrder (entries.map (fun e => e.dept)) := by
  rw [deptData_applyAdds, keysOf_applyAdds_firstOccur, firstAppearanceOrder,
    List.map_map]
  rfl

theorem lookupD_eq_of_mem {α : Type} {l : List (String × α)} {p : String × α} (d : α)
    (hnd : (keysOf l).Nodup) (hp : p ∈ l) : lookupD l p.1 d = p.2 := by
  induction l with
  | nil => cases hp
  | cons q t ih =>
    obtain ⟨k1, v⟩ := q
    rw [keysOf, List.map_cons] at hnd
    obtain ⟨hq, ht⟩ := List.nodup_cons.mp hnd
    cases hp with
    | head => simp [lookupD]
    | tail b hp =>
      have hne : ¬ (k1 = p.1) :=
        fun hh => hq (hh ▸ List.mem_map_of_mem (fun x => x.1) hp)
      rw [show lookupD ((k1, v) :: t) p.1 d
          = if k1 = p.1 then v else lookupD t p.1 d from rfl, if_neg hne]
      exact ih ht hp

theorem filter_of_map_pairs (entries : List ChartEntry) (d : String) :
    ((entries.map (fun e => (e.dept, e.size))).filter (fun u => u.1 = d)).map
        (fun u => u.2)
      = (entries.filter (fun e => e.dept = d)).map (fun e => e.size) := by
  induction entries with
  | nil => rfl
  | cons e t ih =>
    by_cases h : e.dept = d
    · rw [List.map_cons, List.filter_cons_of_pos (by simp [h]),
        List.filter_cons_of_pos (by simp [h]), List.map_cons, List.map_cons, ih]
    · rw [List.map_cons, List.filter_cons_of_neg (by simp [h]),
        List.filter_cons_of_neg (by simp [h]), ih]

theorem deptData_vals (entries : List ChartEntry) :
    ∀ p ∈ deptData entries,
      p.2 = ((entries.filter (fun e => e.dept = p.1)).map (fun e => e.size)).sum := by
  intro p hp
  have hnd : (keysOf (deptData entries)).Nodup := by
    rw [deptData_applyAdds]
    exact nodup_keysOf_applyAdds _ _ (by simp [keysOf])
  have hlook : lookupD (deptData entries) p.1 0 = p.2 := lookupD_eq_of_mem 0 hnd hp
  rw [← hlook, deptData_applyAdds, lookupD_applyAdds, filter_of_map_pairs]
  simp [lookupD]

/-- C3: with a positive total, the outer ring has one wedge per entry in
input order, consecutive from angle 0, each of width size/total times 2 pi,
and the widths sum to 2 pi; the inner ring has one wedge per department in
order of first appearance, of width equal to the department share of the
total times 2 pi, also consecutive from 0 and also summing to 2 pi. -/
theorem c3_chart_layout :
    ∀ entries : List ChartEntry, 0 < totalSize entries →
      ((outerWedges entries).map (fun w => w.label) = entries.map (fun e => e.label))
      ∧ ((outerWedges entries).map (fun w => w.theta2 - w.theta1)
          = entries.map (fun e => angleOf (totalSize entries) e.size))
      ∧ (∀ w ∈ (outerWedges entries).head?, w.theta1 = 0)
      ∧ List.Chain' (fun w w2 => w.theta2 = w2.theta1) (outerWedges entries)
      ∧ (((outerWedges entries).map (fun w => w.theta2 - w.theta1)).sum
          = 2 * Real.pi)
      ∧ ((innerWedges entries).map (fun w => w.label)
          = firstAppearanceOrder (entries.map (fun e => e.dept)))
      ∧ ((innerWedges entries).map (fun w => w.theta2 - w.theta1)
          = (deptData entries).map (fun p => angleOf (totalSize entries) p.2))
      ∧ (∀ p ∈ deptData entries,
          p.2 = ((entries.filter (fun e => e.dept = p.1)).map (fun e => e.size)).sum)
      ∧ (∀ w ∈ (innerWedges entries).head?, w.theta1 = 0)
      ∧ List.Chain' (fun w w2 => w.theta2 = w2.theta1) (innerWedges entries)
      ∧ (((innerWedges entries).map (fun w => w.theta2 - w.theta1)).sum
          = 2 * Real.pi) := by
  intro entries hpos
  refine ⟨?_, ?_, ?_, ?_, ?_, ?_, ?_, deptData_vals entries, ?_, ?_, ?_⟩
  · rw [outerWedges, accumWedges_map_label, List.map_map]
    rfl
  · rw [outerWedges, accumWedges_map_width, List.map_map]
    rfl
  · exact accumWedges_head_theta1 _ _ _
  · exact accumWedges_chain _ _ _
  · rw [outerWedges, accumWedges_map_width]
    exact sum_angles _ _ hpos (by rw [List.map_map]; rfl)
  · rw [innerWedges, accumWedges_map_label, ← deptData_keys, keysOf]
  · rw [innerWedges, accumWedges_map_width]
  · exact accumWedges_head_theta1 _ _ _
  · exact accumWedges_chain _ _ _
  · rw [innerWedges, accumWedges_map_width]
    exact sum_angles _ _ hpos (deptData_sum entries)

/-- C3 witness: the 30/70 layout of the specification scenario spans the
whole circle. -/
theorem c3_witness :
    ((outerWedges
        [ { label := "A", size := 30, color := "blue", dept := "Производство" }
        , { label := "B", size := 70, color := "orange", dept := "Офис" } ]).map
      (fun w => w.theta2 - w.theta1)).sum = 2 * Real.pi :=
  (c3_chart_layout
    [ { label := "A", size := 30, color := "blue", dept := "Производство" }
    , { label := "B", size := 70, color := "orange", dept := "Офис" } ]
    (by decide)).2.2.2.2.1

theorem compRowFor_role (cur prev : AnalysisState) (a : String) :
    (compRowFor cur prev a).role = a := by
  by_cases h : a ∈ production_roles <;> simp [compRowFor, h]

theorem compare_perm_union (cur prev : AnalysisState) :
    (compare_with_previous cur prev).Perm
      ((unionRoles cur prev).map (compRowFor cur prev)) :=
  sortByKey_perm _ _

/-- C2: compare_with_previous emits exactly one row per role name in the
union of the role names of both results, each row derived from the static
department membership with 0 defaults for missing entries and deltas equal
to current minus previous, and the rows are sorted by cost delta
descending. -/
theorem c2_compare_rows :
    ∀ cur prev : AnalysisState,
      ((compare_with_previous cur prev).map (fun r => r.role)).Perm
          (unionRoles cur prev)
      ∧ (unionRoles cur prev).Nodup
      ∧ (∀ a : String, a ∈ unionRoles cur prev
          ↔ (a ∈ keysOf cur.prodCounts ∨ a ∈ keysOf prev.prodCounts
             ∨ a ∈ keysOf cur.offCounts ∨ a ∈ keysOf prev.offCounts))
      ∧ (∀ row ∈ compare_with_previous cur prev,
          row = compRowFor cur prev row.role
          ∧ row.dept
              = (if row.role ∈ production_roles then "Производство" else "Офис")
          ∧ row.curCount
              = lookupD (if row.role ∈ production_roles then cur.prodCounts
                  else cur.offCounts) row.role 0
          ∧ row.prevCount
              = lookupD (if row.role ∈ production_roles then prev.prodCounts
                  else prev.offCounts) row.role 0
          ∧ row.curCost
              = lookupD (if row.role ∈ production_roles then cur.prodCosts
                  else cur.offCosts) row.role 0
          ∧ row.prevCost
              = lookupD (if row.role ∈ production_roles then prev.prodCosts
                  else prev.offCosts) row.role 0
          ∧ row.countDiff = (row.curCount : ℤ) - (row.prevCount : ℤ)
          ∧ row.costDiff = row.curCost - row.prevCost)
      ∧ (compare_with_previous cur prev).Pairwise
          (fun a b => b.costDiff ≤ a.costDiff) := by
  intro cur prev
  refine ⟨?_, List.nodup_dedup _, ?_, ?_, pairwise_sortByKey _ _⟩
  · have h2 := (compare_perm_union cur prev).map (fun r : CompRow => r.role)
    have h3 : ((unionRoles cur prev).map (compRowFor cur prev)).map
        (fun r : CompRow => r.role) = unionRoles cur prev := by
      rw [List.map_map]
      calc (unionRoles cur prev).map
            ((fun r : CompRow => r.role) ∘ compRowFor cur prev)
          = (unionRoles cur prev).map id := by
            apply List.map_congr_left
            intro a ha
            exact compRowFor_role cur prev a
        _ = unionRoles cur prev := List.map_id _
    rw [h3] at h2
    exact h2
  · intro a
    rw [unionRoles, List.mem_dedup]
    simp only [List.mem_append]
    tauto
  · intro row hrow
    rcases List.mem_map.mp ((compare_perm_union cur prev).mem_iff.mp hrow)
      with ⟨a, ha, rfl⟩
    rw [compRowFor_role]
    by_cases h : a ∈ production_roles <;>
      simp [compRowFor, h]
  
/-- C2 witness: the comparison of a concrete current result against an
empty previous result at concrete states. -/
theorem c2_witness :
    ((compare_with_previous
        { prodCounts := [("Резка", 2)], prodCosts := [("Резка", 100)]
        , offCounts := [], offCosts := []
        , prodDeptCount := 2, prodDeptCost := 100
        , offDeptCount := 0, offDeptCost := 0 } initState).map
      (fun r => r.role)).Perm
      (unionRoles
        { prodCounts := [("Резка", 2)], prodCosts := [("Резка", 100)]
        , offCounts := [], offCosts := []
        , prodDeptCount := 2, prodDeptCost := 100
        , offDeptCount := 0, offDeptCost := 0 } initState) :=
  (c2_compare_rows
    { prodCounts := [("Резка", 2)], prodCosts := [("Резка", 100)]
    , offCounts := [], offCosts := []
    , prodDeptCount := 2, prodDeptCost := 100
    , offDeptCount := 0, offDeptCost := 0 } initState).1

/-- C9: a role is assigned the Production department in the comparison
exactly when it belongs to the static production role list; every other
role is assigned Office and all of its four values are read only from the
Office dicts (so values stored under Production for such a role are
reported as 0), and its row is part of the comparison output. -/
theorem c9_department_from_static_list :
    ∀ (cur prev : AnalysisState) (r : String),
      r ∈ unionRoles cur prev →
      ((compRowFor cur prev r).dept = "Производство" ↔ r ∈ production_roles)
      ∧ ((compRowFor cur prev r).dept = "Офис" ↔ r ∉ production_roles)
      ∧ (r ∉ production_roles →
          (compRowFor cur prev r).curCount = lookupD cur.offCounts r 0
          ∧ (compRowFor cur prev r).prevCount = lookupD prev.offCounts r 0
          ∧ (compRowFor cur prev r).curCost = lookupD cur.offCosts r 0
          ∧ (compRowFor cur prev r).prevCost = lookupD prev.offCosts r 0)
      ∧ (r ∈ production_roles →
          (compRowFor cur prev r).curCount = lookupD cur.prodCounts r 0
          ∧ (compRowFor cur prev r).prevCount = lookupD prev.prodCounts r 0
          ∧ (compRowFor cur prev r).curCost = lookupD cur.prodCosts r 0
          ∧ (compRowFor cur prev r).prevCost = lookupD prev.prodCosts r 0)
      ∧ compRowFor cur prev r ∈ compare_with_previous cur prev := by
  intro cur prev r hr
  refine ⟨?_, ?_, ?_, ?_, ?_⟩
  · by_cases h : r ∈ production_roles
    · simp [compRowFor, h]
    · simp only [compRowFor, if_neg h]
      constructor
      · intro hcon
        exact absurd hcon (by decide)
      · intro hcon
        exact absurd hcon h
  · by_cases h : r ∈ production_roles
    · simp only [compRowFor, if_pos h]
      constructor
      · intro hcon
        exact absurd hcon (by decide)
      · intro hcon
        exact absurd h hcon
    · simp [compRowFor, h]
  · intro h
    simp [compRowFor, h]
  · intro h
    simp [compRowFor, h]
  · exact (compare_perm_union cur prev).mem_iff.mpr
      (List.mem_map_of_mem _ hr)

/-- C9 witness: the role Лазер is stored under Production in the current
result but is absent from the static list, so its comparison row reads the
Office dicts, where nothing is stored. -/
theorem c9_witness :
    (compRowFor
        { prodCounts := [("Лазер", 3)], prodCosts := [("Лазер", 300)]
        , offCounts := [], offCosts := []
        , prodDeptCount := 3, prodDeptCost := 300
        , offDeptCount := 0, offDeptCost := 0 } initState "Лазер").curCount
      = lookupD
          ({ prodCounts := [("Лазер", 3)], prodCosts := [("Лазер", 300)]
              , offCounts := [], offCosts := []
              , prodDeptCount := 3, prodDeptCost := 300
              , offDeptCount := 0, offDeptCost := 0 } : AnalysisState).offCounts
          "Лазер" 0 :=
  ((c9_department_from_static_list
    { prodCounts := [("Лазер", 3)], prodCosts := [("Лазер", 300)]
    , offCounts := [], offCosts := []
    , prodDeptCount := 3, prodDeptCost := 300
    , offDeptCount := 0, offDeptCost := 0 } initState "Лазер"
    (by with_unfolding_all decide)).2.2.1 (by with_unfolding_all decide)).1

/-! Order-independence machinery for the reversal claim. -/

theorem updates_reverse_perm {β : Type} (f : Record → List (String × β))
    (rows : List Record) :
    ((rows.reverse.map f).flatten).Perm ((rows.map f).flatten) := by
  rw [List.map_reverse]
  exact flatten_reverse_perm _

theorem lookup_applyAdds_perm {β : Type} [AddCommMonoid β]
    (us vs l : List (String × β)) (k : String) (h : us.Perm vs) :
    lookupD (applyAdds us l) k 0 = lookupD (applyAdds vs l) k 0 := by
  rw [lookupD_applyAdds, lookupD_applyAdds]
  congr 1
  exact ((h.filter _).map _).sum_eq

theorem rolesData_prodPart_keys (rows : List Record) :
    (aggregateRecords rows).prodCosts.map (fun p =>
      ({ dept := "Производство", role := p.1
       , count := lookupD (aggregateRecords rows).prodCounts p.1 0
       , cost := p.2 } : RoleRow))
    = (keysOf (aggregateRecords rows).prodCosts).map (fun k =>
      ({ dept := "Производство", role := k
       , count := lookupD (aggregateRecords rows).prodCounts k 0
       , cost := lookupD (aggregateRecords rows).prodCosts k 0 } : RoleRow)) := by
  conv_lhs => rw [← lookupD_rebuild (aggregateRecords rows).prodCosts 0
    (aggregate_prodCosts_keys_nodup rows)]
  rw [List.map_map]
  rfl

theorem rolesData_offPart_keys (rows : List Record) :
    (aggregateRecords rows).offCosts.map (fun p =>
      ({ dept := "Офис", role := p.1
       , count := lookupD (aggregateRecords rows).offCounts p.1 0
       , cost := p.2 } : RoleRow))
    = (keysOf (aggregateRecords rows).offCosts).map (fun k =>
      ({ dept := "Офис", role := k
       , count := lookupD (aggregateRecords rows).offCounts k 0
       , cost := lookupD (aggregateRecords rows).offCosts k 0 } : RoleRow)) := by
  conv_lhs => rw [← lookupD_rebuild (aggregateRecords rows).offCosts 0
    (aggregate_offCosts_keys_nodup rows)]
  rw [List.map_map]
  rfl

theorem rolesData_reverse_perm (rows : List Record)
    (hlookPC : ∀ k, lookupD (aggregateRecords rows.reverse).prodCosts k 0
      = lookupD (aggregateRecords rows).prodCosts k 0)
    (hlookPN : ∀ k, lookupD (aggregateRecords rows.reverse).prodCounts k 0
      = lookupD (aggregateRecords rows).prodCounts k 0)
    (hlookOC : ∀ k, lookupD (aggregateRecords rows.reverse).offCosts k 0
      = lookupD (aggregateRecords rows).offCosts k 0)
    (hlookON : ∀ k, lookupD (aggregateRecords rows.reverse).offCounts k 0
      = lookupD (aggregateRecords rows).offCounts k 0)
    (hkeysP : (keysOf (aggregateRecords rows.reverse).prodCosts).Perm
      (keysOf (aggregateRecords rows).prodCosts))
    (hkeysO : (keysOf (aggregateRecords rows.reverse).offCosts).Perm
      (keysOf (aggregateRecords rows).offCosts)) :
    (rolesData (aggregateRecords rows.reverse)).Perm
      (rolesData (aggregateRecords rows)) := by
  simp only [rolesData]
  rw [rolesData_prodPart_keys rows, rolesData_prodPart_keys rows.reverse,
    rolesData_offPart_keys rows, rolesData_offPart_keys rows.reverse]
  refine List.Perm.append ?_ ?_
  · have hfun : (fun k => RoleRow.mk "Производство" k
          (lookupD (aggregateRecords rows.reverse).prodCounts k 0)
          (lookupD (aggregateRecords rows.reverse).prodCosts k 0))
        = (fun k => RoleRow.mk "Производство" k
          (lookupD (aggregateRecords rows).prodCounts k 0)
          (lookupD (aggregateRecords rows).prodCosts k 0)) := by
      funext k
      rw [hlookPC k, hlookPN k]
    rw [hfun]
    exact hkeysP.map _
  · have hfun : (fun k => RoleRow.mk "Офис" k
          (lookupD (aggregateRecords rows.reverse).offCounts k 0)
          (lookupD (aggregateRecords rows.reverse).offCosts k 0))
        = (fun k => RoleRow.mk "Офис" k
          (lookupD (aggregateRecords rows).offCounts k 0)
          (lookupD (aggregateRecords rows).offCosts k 0)) := by
      funext k
      rw [hlookOC k, hlookON k]
    rw [hfun]
    exact hkeysO.map _

/-- C8 counterexample: two records with equal costs; aggregating them in
reversed order reverses the discovery order of the two equal-cost roles,
so the final sorted table differs, refuting the claim as stated. -/
theorem c8_counterexample :
    analyze_data (some [{ laborCost := 10, production := some "A", office := none },
        { laborCost := 10, production := some "B", office := none }])
      = Except.ok (aggregateRecords
          [{ laborCost := 10, production := some "A", office := none },
           { laborCost := 10, production := some "B", office := none }])
    ∧ analyze_data (some ([{ laborCost := 10, production := some "A", office := none },
        { laborCost := 10, production := some "B", office := none }] : List Record).reverse)
      = Except.ok (aggregateRecords
          ([{ laborCost := 10, production := some "A", office := none },
            { laborCost := 10, production := some "B", office := none }] : List Record).reverse)
    ∧ get_sorted_role_costs (aggregateRecords
        ([{ laborCost := 10, production := some "A", office := none },
          { laborCost := 10, production := some "B", office := none }] : List Record).reverse)
      ≠ get_sorted_role_costs (aggregateRecords
          [{ laborCost := 10, production := some "A", office := none },
           { laborCost := 10, production := some "B", office := none }]) := by
  refine ⟨by with_unfolding_all rfl, by with_unfolding_all rfl, ?_⟩
  with_unfolding_all decide

/-- C8 (amended): when the final role costs are pairwise distinct,
aggregating the reversed row sequence and sorting gives exactly the same
table as aggregating in the original order; with equal-cost ties the two
outputs agree only up to the order of the tied rows (see the
counterexample). -/
theorem c8_amended_reverse_invariance :
    ∀ (rows : List Record) (stA stB : AnalysisState),
      analyze_data (some rows) = Except.ok stA →
      analyze_data (some rows.reverse) = Except.ok stB →
      ((rolesData stA).map (fun r => r.cost)).Nodup →
      get_sorted_role_costs stB = get_sorted_role_costs stA := by
  intro rows stA stB hA hB hnodup
  have hstA := analyze_data_ok_eq _ _ hA
  have hstB := analyze_data_ok_eq _ _ hB
  subst hstA
  subst hstB
  have hlookPC : ∀ k, lookupD (aggregateRecords rows.reverse).prodCosts k 0
      = lookupD (aggregateRecords rows).prodCosts k 0 := by
    intro k
    rw [aggregateRecords, aggregateRecords, foldl_processRow_prodCosts,
      foldl_processRow_prodCosts]
    exact lookup_applyAdds_perm _ _ _ k (updates_reverse_perm prodCostUpdates rows)
  have hlookPN : ∀ k, lookupD (aggregateRecords rows.reverse).prodCounts k 0
      = lookupD (aggregateRecords rows).prodCounts k 0 := by
    intro k
    rw [aggregateRecords, aggregateRecords, foldl_processRow_prodCounts,
      foldl_processRow_prodCounts]
    exact lookup_applyAdds_perm _ _ _ k (updates_reverse_perm prodCountUpdates rows)
  have hlookOC : ∀ k, lookupD (aggregateRecords rows.reverse).offCosts k 0
      = lookupD (aggregateRecords rows).offCosts k 0 := by
    intro k
    rw [aggregateRecords, aggregateRecords, foldl_processRow_offCosts,
      foldl_processRow_offCosts]
    exact lookup_applyAdds_perm _ _ _ k (updates_reverse_perm offCostUpdates rows)
  have hlookON : ∀ k, lookupD (aggregateRecords rows.reverse).offCounts k 0
      = lookupD (aggregateRecords rows).offCounts k 0 := by
    intro k
    rw [aggregateRecords, aggregateRecords, foldl_processRow_offCounts,
      foldl_processRow_offCounts]
    exact lookup_applyAdds_perm _ _ _ k (updates_reverse_perm offCountUpdates rows)
  have hkeysP : (keysOf (aggregateRecords rows.reverse).prodCosts).Perm
      (keysOf (aggregateRecords rows).prodCosts) := by
    apply (List.perm_ext_iff_of_nodup (aggregate_prodCosts_keys_nodup _)
      (aggregate_prodCosts_keys_nodup _)).mpr
    intro a
    rw [aggregateRecords, aggregateRecords, foldl_processRow_prodCosts,
      foldl_processRow_prodCosts, mem_keysOf_applyAdds, mem_keysOf_applyAdds]
    exact or_congr Iff.rfl ((updates_reverse_perm prodCostUpdates rows).map _).mem_iff
  have hkeysO : (keysOf (aggregateRecords rows.reverse).offCosts).Perm
      (keysOf (aggregateRecords rows).offCosts) := by
    apply (List.perm_ext_iff_of_nodup (aggregate_offCosts_keys_nodup _)
      (aggregate_offCosts_keys_nodup _)).mpr
    intro a
    rw [aggregateRecords, aggregateRecords, foldl_processRow_offCosts,
      foldl_processRow_offCosts, mem_keysOf_applyAdds, mem_keysOf_applyAdds]
    exact or_congr Iff.rfl ((updates_reverse_perm offCostUpdates rows).map _).mem_iff
  have hperm : (rolesData (aggregateRecords rows.reverse)).Perm
      (rolesData (aggregateRecords rows)) :=
    rolesData_reverse_perm rows hlookPC hlookPN hlookOC hlookON hkeysP hkeysO
  apply sorted_desc_unique (fun r : RoleRow => r.cost)
  · exact ((sortByKey_perm _ _).trans hperm).trans (sortByKey_perm _ _).symm
  · exact pairwise_sortByKey _ _
  · exact pairwise_sortByKey _ _
  · have h1 : ((get_sorted_role_costs (aggregateRecords rows.reverse)).map
        (fun r : RoleRow => r.cost)).Perm
        ((rolesData (aggregateRecords rows)).map (fun r : RoleRow => r.cost)) :=
      ((sortByKey_perm _ _).trans hperm).map _
    exact h1.nodup_iff.mpr hnodup

/-- C8 witness: with two distinct costs the reversed aggregation sorts to
the identical table. -/
theorem c8_witness :
    get_sorted_role_costs (aggregateRecords
        ([{ laborCost := 10, production := some "A", office := none },
          { laborCost := 20, production := some "B", office := none }] : List Record).reverse)
      = get_sorted_role_costs (aggregateRecords
          [{ laborCost := 10, production := some "A", office := none },
           { laborCost := 20, production := some "B", office := none }]) :=
  c8_amended_reverse_invariance
    [{ laborCost := 10, production := some "A", office := none },
     { laborCost := 20, production := some "B", office := none }] _ _
    (by with_unfolding_all rfl) (by with_unfolding_all rfl)
    (by with_unfolding_all decide)
